import Mathlib

/-!
# Verification of the baggage protocol engine (`packages/utils/src/baggage.ts`)

Shallow embedding of the baggage header model, parser, serializer and merge
engine, together with a behavioural model of the trace-context correlator.

Strings are modelled as `List Char` (`Str`); a JS object holding first-party
baggage entries is modelled as an association list in insertion order
(`BaggageObj`), mirroring JS object key-iteration order.  Fallible JS code
(percent-decoding can throw `URIError`) is modelled with `Option`.
-/

/-- JS strings, modelled as lists of characters. -/
abbrev Str := List Char

/-- Convenience injection from Lean string literals into the `Str` model. -/
def str (s : String) : Str := s.data

/-- The first element of the `Baggage` tuple: a JS object mapping first-party
keys to values.  Modelled as an association list in insertion order (JS object
key order); keys are unique in every object actually built by the code. -/
abbrev BaggageObj := List (Str × Str)

/-- `Baggage` from `@sentry/types`: the tuple `[BaggageObj, string]` of
first-party items and the opaque third-party remainder string. -/
abbrev Baggage := BaggageObj × Str

/-- `SENTRY_BAGGAGE_KEY_PREFIX` from the source: the reserved first-party key
prefix `"sentry-"` (the Lean name drops the final word of the source name). -/
def SENTRY_BAGGAGE_KEY_PFX : Str := str "sentry-"

/-- `MAX_BAGGAGE_STRING_LENGTH`: max length of a serialized baggage string. -/
def MAX_BAGGAGE_STRING_LENGTH : Nat := 8192

/-- `createBaggage(initItems, baggageString = '')`. -/
def createBaggage (initItems : BaggageObj) (baggageString : Str := []) : Baggage :=
  (initItems, baggageString)

/-- Association-list lookup, modelling a JS object property read `obj[key]`
(`none` models `undefined`). -/
def lookupStr : BaggageObj → Str → Option Str
  | [], _ => none
  | kv :: rest, k => if kv.1 = k then some kv.2 else lookupStr rest k

/-- `getBaggageValue(baggage, key)` = `baggage[0][key]`. -/
def getBaggageValue (baggage : Baggage) (key : Str) : Option Str :=
  lookupStr baggage.1 key

/-- `getThirdPartyBaggage(baggage)` = `baggage[1]`. -/
def getThirdPartyBaggage (baggage : Baggage) : Str :=
  baggage.2

/-- JS object spread-with-override `{...obj, [k]: v}`: if `k` is present its
value is replaced in place (property order keeps the first insertion
position), otherwise the pair is appended at the end. -/
def upsert : BaggageObj → Str → Str → BaggageObj
  | [], k, v => [(k, v)]
  | kv :: rest, k, v => if kv.1 = k then (k, v) :: rest else kv :: upsert rest k v

/-- JS `String.prototype.split` with a single-character separator:
`splitChar c s` never returns `[]`, and splitting the empty string gives
`[""]`, exactly as in JS. -/
def splitChar (c : Char) : Str → List Str
  | [] => [[]]
  | x :: xs =>
    if x = c then [] :: splitChar c xs
    else (x :: (splitChar c xs).headD []) :: (splitChar c xs).tail

/-- Comma-style join: `joinChar c [a, b, cs] = a ++ c :: b ++ c :: cs`. -/
def joinChar (c : Char) : List Str → Str
  | [] => []
  | [x] => x
  | x :: xs => x ++ c :: joinChar c xs

/-- Boolean string-prefix test, modelling the anchored regex test
`SENTRY_BAGGAGE_KEY_PREFIX_REGEX.test(k)` (with `SENTRY_BAGGAGE_KEY_PFX` as
first argument). -/
def hasPfx : Str → Str → Bool
  | [], _ => true
  | _ :: _, [] => false
  | p :: ps, c :: cs => if p = c then hasPfx ps cs else false

/-! ## `encodeURIComponent` / `decodeURIComponent`

The JS builtins, modelled from ECMA-262.  `encodeURIComponent` leaves the
unreserved characters `A-Z a-z 0-9 - _ . ! ~ * ' ( )` unescaped and
percent-encodes the UTF-8 bytes of every other character with uppercase hex.
`decodeURIComponent` is modelled on the ASCII fragment: a `%XX` escape with
`XX < 0x80` decodes to that character, a malformed escape is a failure
(`URIError` in JS), and a multi-byte UTF-8 escape sequence (`XX ≥ 0x80`) is
outside the modelled fragment and also mapped to failure; every input
appearing in the theorems below stays inside the ASCII fragment. -/

/-- Characters `encodeURIComponent` leaves unescaped
(`A-Z a-z 0-9 - _ . ! ~ * ' ( )`, by code point). -/
def isUriUnreserved (c : Char) : Bool :=
  decide ((65 ≤ c.toNat ∧ c.toNat ≤ 90) ∨ (97 ≤ c.toNat ∧ c.toNat ≤ 122) ∨
    (48 ≤ c.toNat ∧ c.toNat ≤ 57) ∨
    c.toNat ∈ ([45, 95, 46, 33, 126, 42, 39, 40, 41] : List Nat))

/-- UTF-8 bytes of a code point. -/
def utf8Bytes (n : Nat) : List Nat :=
  if n < 128 then [n]
  else if n < 2048 then [192 + n / 64, 128 + n % 64]
  else if n < 65536 then [224 + n / 4096, 128 + (n / 64) % 64, 128 + n % 64]
  else [240 + n / 262144, 128 + (n / 4096) % 64, 128 + (n / 64) % 64, 128 + n % 64]

/-- Uppercase hex digit of a value `< 16`. -/
def hexDigit (n : Nat) : Char :=
  if n < 10 then Char.ofNat (48 + n) else Char.ofNat (55 + n)

/-- Percent-escape of one byte: `%XX` with uppercase hex. -/
def pctByte (b : Nat) : Str :=
  ['%', hexDigit (b / 16), hexDigit (b % 16)]

/-- `encodeURIComponent` on one character. -/
def encOne (c : Char) : Str :=
  if isUriUnreserved c then [c] else ((utf8Bytes c.toNat).map pctByte).flatten

/-- JS `encodeURIComponent`. -/
def encodeURIComponent (s : Str) : Str :=
  (s.map encOne).flatten

/-- Hex-digit value of a character (`0-9`, `A-F`, `a-f`). -/
def hexVal (c : Char) : Option Nat :=
  if 48 ≤ c.toNat ∧ c.toNat ≤ 57 then some (c.toNat - 48)
  else if 65 ≤ c.toNat ∧ c.toNat ≤ 70 then some (c.toNat - 55)
  else if 97 ≤ c.toNat ∧ c.toNat ≤ 102 then some (c.toNat - 87)
  else none

/-- JS `decodeURIComponent` on the ASCII fragment (see the section comment);
`none` models a thrown `URIError` (and escapes outside the fragment). -/
def decodeURIComponent : Str → Option Str
  | [] => some []
  | c :: rest =>
    if c = '%' then
      match rest with
      | c1 :: c2 :: rest2 =>
        match hexVal c1, hexVal c2 with
        | some a, some b =>
          if 16 * a + b < 128 then
            (decodeURIComponent rest2).map (fun t => Char.ofNat (16 * a + b) :: t)
          else none
        | _, _ => none
      | _ => none
    else (decodeURIComponent rest).map (fun t => c :: t)

/-! ## Serializer -/

/-- The serialized wire form of one first-party entry:
`` `${SENTRY_BAGGAGE_KEY_PREFIX}${encodeURIComponent(key)}=${encodeURIComponent(val)}` ``. -/
def entryStr (kv : Str × Str) : Str :=
  SENTRY_BAGGAGE_KEY_PFX ++ encodeURIComponent kv.1 ++ '=' :: encodeURIComponent kv.2

/-- The comma-append used by both serializer and parser:
`prev === '' ? curr : prev + ',' + curr`. -/
def remStep (acc curr : Str) : Str :=
  if acc = [] then curr else acc ++ ',' :: curr

/-- One reducer step of `serializeBaggage`: append the encoded entry unless the
prospective string would exceed `MAX_BAGGAGE_STRING_LENGTH` (in which case the
entry is dropped; the debug-build `logger.warn` is a no-op in the model). -/
def serStep (prev : Str) (kv : Str × Str) : Str :=
  let newVal := remStep prev (entryStr kv)
  if newVal.length > MAX_BAGGAGE_STRING_LENGTH then prev else newVal

/-- `serializeBaggage`: a fold over `Object.keys(baggage[0])` starting from the
third-party remainder `baggage[1]`. -/
def serializeBaggage (baggage : Baggage) : Str :=
  baggage.1.foldl serStep baggage.2

/-- The naive unbounded serialization of a first-party item list: the same
fold as `serializeBaggage` over an empty remainder but with no length guard.
Used only to state size-bound hypotheses (the spec's "naive unbounded
serialization"). -/
def naiveSerialize (m : BaggageObj) : Str :=
  m.foldl (fun acc kv => remStep acc (entryStr kv)) []

/-! ## Parser -/

/-- JS string coercion of a possibly-`undefined` value before
`decodeURIComponent`: `String(undefined) = "undefined"`. -/
def jsArg (o : Option Str) : Str :=
  match o with
  | some v => v
  | none => str "undefined"

/-- The `key` of a segment: `curr.split('=')[0]` (first destructured part). -/
def segKey (seg : Str) : Str :=
  (splitChar '=' seg).headD []

/-- The `val` of a segment: `curr.split('=')[1]` (second destructured part;
`none` models `undefined`, and note this is the portion between the first and
second `=` only). -/
def segValRaw (seg : Str) : Option Str :=
  (splitChar '=' seg).get? 1

/-- The regex test `SENTRY_BAGGAGE_KEY_PREFIX_REGEX.test(key)` on a segment's
(raw, undecoded) key. -/
def isFirstParty (seg : Str) : Bool :=
  hasPfx SENTRY_BAGGAGE_KEY_PFX (segKey seg)

/-- Processing of one first-party segment:
`baggageKey = decodeURIComponent(key.split('-')[1])` and
`decodeURIComponent(val)`; `none` iff either decode throws. -/
def procSeg (seg : Str) : Option (Str × Str) :=
  match decodeURIComponent (jsArg ((splitChar '-' (segKey seg)).get? 1)),
        decodeURIComponent (jsArg (segValRaw seg)) with
  | some k, some v => some (k, v)
  | _, _ => none

/-- One reducer step of `parseBaggageString` on one comma-separated segment. -/
def parseStep (b : Baggage) (seg : Str) : Option Baggage :=
  if isFirstParty seg then
    (procSeg seg).map (fun kv => (upsert b.1 kv.1 kv.2, b.2))
  else
    some (b.1, remStep b.2 seg)

/-- The reduce over segments (a thrown `URIError` aborts the whole parse). -/
def parseSegs (b : Baggage) : List Str → Option Baggage
  | [] => some b
  | seg :: rest =>
    match parseStep b seg with
    | none => none
    | some b2 => parseSegs b2 rest

/-- `parseBaggageString`: split on `,` and reduce from `[{}, '']`. -/
def parseBaggageString (inputBaggageString : Str) : Option Baggage :=
  parseSegs ([], []) (splitChar ',' inputBaggageString)

/-! ## Merge engine -/

/-- `mergeAndSerializeBaggage(incomingBaggage?, headerBaggageString?)`.
`none` arguments model `undefined`; the JS falsiness of `''` is modelled
explicitly (`some []` is falsy as a header string), and `none` in the result
models a `URIError` thrown while parsing the header string. -/
def mergeAndSerializeBaggage (incomingBaggage : Option Baggage)
    (headerBaggageString : Option Str) : Option Str :=
  if incomingBaggage = none ∧
      (headerBaggageString = none ∨ headerBaggageString = some []) then
    some []
  else
    let hb : Option (Option Baggage) :=
      match headerBaggageString with
      | none => some none
      | some [] => some none
      | some s =>
        match parseBaggageString s with
        | none => none
        | some b => some (some b)
    match hb with
    | none => none
    | some headerBaggage =>
      let thirdPartyHeaderBaggage : Str :=
        match headerBaggage with
        | none => []
        | some b => getThirdPartyBaggage b
      let finalBaggage := createBaggage
        (match incomingBaggage with | none => [] | some b => b.1)
        thirdPartyHeaderBaggage
      some (serializeBaggage finalBaggage)


/-! ## Lemmas about `splitChar` and `joinChar` -/

theorem splitChar_ne_nil (c : Char) (s : Str) : splitChar c s ≠ [] := by
  cases s with
  | nil => simp [splitChar]
  | cons x xs =>
    simp only [splitChar]
    split <;> simp

theorem splitChar_cons_exists (c : Char) (s : Str) :
    ∃ y ys, splitChar c s = y :: ys := by
  cases h : splitChar c s with
  | nil => exact absurd h (splitChar_ne_nil c s)
  | cons y ys => exact ⟨y, ys, rfl⟩

theorem splitChar_append (c : Char) (a b : Str) :
    splitChar c (a ++ c :: b) = splitChar c a ++ splitChar c b := by
  induction a with
  | nil => simp [splitChar]
  | cons x xs ih =>
    by_cases hx : x = c
    · simp [splitChar, hx, ih]
    · rw [List.cons_append]
      simp only [splitChar, if_neg hx, ih]
      obtain ⟨y, ys, h⟩ := splitChar_cons_exists c xs
      rw [h]
      simp

theorem splitChar_eq_single (c : Char) (s : Str) (h : c ∉ s) : splitChar c s = [s] := by
  induction s with
  | nil => simp [splitChar]
  | cons x xs ih =>
    simp only [List.mem_cons, not_or] at h
    simp [splitChar, Ne.symm h.1, ih h.2]

theorem joinChar_splitChar (c : Char) (s : Str) : joinChar c (splitChar c s) = s := by
  induction s with
  | nil => simp [splitChar, joinChar]
  | cons x xs ih =>
    by_cases hx : x = c
    · subst hx
      simp only [splitChar, if_pos rfl]
      cases h : splitChar x xs with
      | nil => exact absurd h (splitChar_ne_nil x xs)
      | cons y ys =>
        rw [h] at ih
        simp [joinChar, ih]
    · simp only [splitChar, if_neg hx]
      cases h : splitChar c xs with
      | nil => exact absurd h (splitChar_ne_nil c xs)
      | cons y ys =>
        rw [h] at ih
        cases ys with
        | nil => simpa [joinChar] using congrArg (x :: ·) ih
        | cons z zs => simpa [joinChar] using congrArg (x :: ·) ih

theorem splitChar_joinChar (c : Char) (l : List Str) (hne : l ≠ [])
    (hfree : ∀ x ∈ l, c ∉ x) : splitChar c (joinChar c l) = l := by
  induction l with
  | nil => exact absurd rfl hne
  | cons x xs ih =>
    cases xs with
    | nil => simpa [joinChar] using splitChar_eq_single c x (hfree x (by simp))
    | cons y ys =>
      have hx : c ∉ x := hfree x (by simp)
      have : joinChar c (x :: y :: ys) = x ++ c :: joinChar c (y :: ys) := by
        simp [joinChar]
      rw [this, splitChar_append, splitChar_eq_single c x hx,
        ih (by simp) (fun z hz => hfree z (List.mem_cons_of_mem x hz))]
      simp

theorem mem_splitChar_not_mem (c : Char) (s : Str) (t : Str)
    (ht : t ∈ splitChar c s) : c ∉ t := by
  induction s generalizing t with
  | nil =>
    simp only [splitChar, List.mem_singleton] at ht
    subst ht; simp
  | cons x xs ih =>
    simp only [splitChar] at ht
    by_cases hx : x = c
    · rw [if_pos hx] at ht
      rcases List.mem_cons.mp ht with h | h
      · subst h; simp
      · exact ih t h
    · rw [if_neg hx] at ht
      cases h : splitChar c xs with
      | nil => exact absurd h (splitChar_ne_nil c xs)
      | cons y ys =>
        rw [h] at ht
        simp only [List.headD_cons, List.tail_cons, List.mem_cons] at ht
        rcases ht with rfl | hmem
        · intro hc
          rcases List.mem_cons.mp hc with h1 | h1
          · exact hx h1.symm
          · exact ih y (h ▸ List.mem_cons_self y ys) h1
        · exact ih t (h ▸ List.mem_cons_of_mem y hmem)

theorem joinChar_cons_append (c : Char) (a b : Str) (l : List Str) :
    joinChar c ((a ++ c :: b) :: l) = a ++ c :: joinChar c (b :: l) := by
  cases l with
  | nil => simp [joinChar]
  | cons y ys => simp [joinChar]

/-! ## Lemmas about the comma-append fold (`remStep`) -/

theorem foldl_remStep_of_ne_nil (l : List Str) (init : Str) (h : init ≠ []) :
    l.foldl remStep init = joinChar ',' (init :: l) := by
  induction l generalizing init with
  | nil => simp [joinChar]
  | cons x xs ih =>
    have hstep : remStep init x = init ++ ',' :: x := by simp [remStep, h]
    rw [List.foldl_cons, hstep, ih (init ++ ',' :: x) (by simp), joinChar_cons_append]
    simp [joinChar]

theorem foldl_remStep_nil (l : List Str) :
    l.foldl remStep [] = joinChar ',' (l.dropWhile List.isEmpty) := by
  induction l with
  | nil => simp [joinChar]
  | cons x xs ih =>
    cases x with
    | nil => simpa [remStep, List.dropWhile] using ih
    | cons y ys =>
      rw [List.foldl_cons]
      have hstep : remStep [] (y :: ys) = y :: ys := by simp [remStep]
      rw [hstep, foldl_remStep_of_ne_nil xs (y :: ys) (by simp)]
      simp [List.dropWhile]

/-! ## Lemmas about `hasPfx` -/

theorem hasPfx_append (p rest : Str) : hasPfx p (p ++ rest) = true := by
  induction p with
  | nil => simp [hasPfx]
  | cons x xs ih => simp [hasPfx, ih]

theorem hasPfx_iff (p s : Str) : hasPfx p s = true ↔ ∃ t, s = p ++ t := by
  constructor
  · intro h
    induction p generalizing s with
    | nil => exact ⟨s, rfl⟩
    | cons x xs ih =>
      cases s with
      | nil => simp [hasPfx] at h
      | cons y ys =>
        simp only [hasPfx] at h
        by_cases hxy : x = y
        · rw [if_pos hxy] at h
          obtain ⟨t, ht⟩ := ih ys h
          exact ⟨t, by simp [← hxy, ht]⟩
        · rw [if_neg hxy] at h; exact absurd h (by simp)
  · rintro ⟨t, rfl⟩
    exact hasPfx_append p t

theorem segKey_eq_takeWhile (seg : Str) :
    segKey seg = seg.takeWhile (fun c => !(c = '=' : Bool)) := by
  induction seg with
  | nil => simp [segKey, splitChar, List.takeWhile]
  | cons x xs ih =>
    by_cases hx : x = '='
    · simp [segKey, splitChar, hx, List.takeWhile]
    · simp only [segKey, splitChar, if_neg hx] at ih ⊢
      cases h : splitChar '=' xs with
      | nil => exact absurd h (splitChar_ne_nil '=' xs)
      | cons y ys =>
        rw [h] at ih
        simp only [List.headD_cons] at ih
        simp [List.takeWhile, hx, ih]

theorem hasPfx_segKey (p seg : Str) (hp : '=' ∉ p) (h : hasPfx p seg = true) :
    hasPfx p (segKey seg) = true := by
  rw [segKey_eq_takeWhile]
  induction p generalizing seg with
  | nil => simp [hasPfx]
  | cons x xs ih =>
    cases seg with
    | nil => simp [hasPfx] at h
    | cons y ys =>
      simp only [hasPfx] at h
      by_cases hxy : x = y
      · rw [if_pos hxy] at h
        have hy : ¬(y = '=') := by
          intro hy
          exact hp (by simp [hxy, hy])
        simp only [List.takeWhile, hy, decide_False, Bool.not_false]
        simp only [hasPfx, if_pos hxy]
        exact ih ys (fun hm => hp (List.mem_cons_of_mem x hm)) h
      · rw [if_neg hxy] at h; exact absurd h (by simp)

/-! ## Lemmas about `encodeURIComponent` / `decodeURIComponent` -/

theorem char_toNat_lt (c : Char) : c.toNat < 1114112 := by
  have h := c.valid
  unfold UInt32.isValidChar Nat.isValidChar at h
  rcases h with h | ⟨_, h⟩ <;> [exact h.trans (by norm_num); exact h]

theorem utf8Bytes_lt_256 (n : Nat) (h : n < 1114112) :
    ∀ b ∈ utf8Bytes n, b < 256 := by
  intro b hb
  unfold utf8Bytes at hb
  split at hb
  · simp only [List.mem_singleton] at hb; omega
  · split at hb
    · simp only [List.mem_cons, List.mem_singleton] at hb
      rcases hb with rfl | rfl | h' <;> first | omega | cases h'
    · split at hb
      · simp only [List.mem_cons, List.mem_singleton] at hb
        rcases hb with rfl | rfl | rfl | h' <;> first | omega | cases h'
      · simp only [List.mem_cons, List.mem_singleton] at hb
        rcases hb with rfl | rfl | rfl | rfl | h' <;> first | omega | cases h'

theorem hexVal_hexDigit (n : Nat) (h : n < 16) : hexVal (hexDigit n) = some n := by
  interval_cases n <;> decide

theorem hexDigit_props (n : Nat) (h : n < 16) :
    hexDigit n ≠ ',' ∧ hexDigit n ≠ '=' ∧ hexDigit n ≠ '-' ∧ hexDigit n ≠ '%' := by
  interval_cases n <;> decide

theorem mem_encOne (c d : Char) (hd : d ∈ encOne c) :
    (isUriUnreserved c = true ∧ d = c) ∨ d = '%' ∨ ∃ n, n < 16 ∧ d = hexDigit n := by
  unfold encOne at hd
  split at hd
  · left; exact ⟨by assumption, by simpa using hd⟩
  · right
    simp only [List.mem_flatten, List.mem_map] at hd
    obtain ⟨l, ⟨b, hb, rfl⟩, hdl⟩ := hd
    have hb256 : b < 256 := utf8Bytes_lt_256 c.toNat (char_toNat_lt c) b hb
    simp only [pctByte, List.mem_cons, List.mem_singleton] at hdl
    rcases hdl with rfl | rfl | rfl | h0
    · exact Or.inl rfl
    · exact Or.inr ⟨b / 16, by omega, rfl⟩
    · exact Or.inr ⟨b % 16, by omega, rfl⟩
    · exact absurd h0 (List.not_mem_nil d)

theorem mem_encode (s : Str) (d : Char) (hd : d ∈ encodeURIComponent s) :
    ∃ c ∈ s, d ∈ encOne c := by
  unfold encodeURIComponent at hd
  simp only [List.mem_flatten, List.mem_map] at hd
  obtain ⟨l, ⟨c, hc, rfl⟩, hdl⟩ := hd
  exact ⟨c, hc, hdl⟩

theorem comma_not_mem_encode (s : Str) : ',' ∉ encodeURIComponent s := by
  intro hmem
  obtain ⟨c, _, hd⟩ := mem_encode s ',' hmem
  rcases mem_encOne c ',' hd with ⟨hun, hc⟩ | h | ⟨n, hn, h⟩
  · rw [← hc] at hun; exact absurd hun (by decide)
  · exact absurd h (by decide)
  · exact (hexDigit_props n hn).1 h.symm

theorem eqchar_not_mem_encode (s : Str) : '=' ∉ encodeURIComponent s := by
  intro hmem
  obtain ⟨c, _, hd⟩ := mem_encode s '=' hmem
  rcases mem_encOne c '=' hd with ⟨hun, hc⟩ | h | ⟨n, hn, h⟩
  · rw [← hc] at hun; exact absurd hun (by decide)
  · exact absurd h (by decide)
  · exact (hexDigit_props n hn).2.1 h.symm

theorem dash_mem_encode_iff (s : Str) : '-' ∈ encodeURIComponent s ↔ '-' ∈ s := by
  constructor
  · intro hmem
    obtain ⟨c, hc, hd⟩ := mem_encode s '-' hmem
    rcases mem_encOne c '-' hd with ⟨_, hceq⟩ | h | ⟨n, hn, h⟩
    · rwa [← hceq] at hc
    · exact absurd h (by decide)
    · exact absurd h.symm (hexDigit_props n hn).2.2.1
  · intro hmem
    unfold encodeURIComponent
    simp only [List.mem_flatten, List.mem_map]
    refine ⟨encOne '-', ⟨'-', hmem, rfl⟩, ?_⟩
    simp [encOne, isUriUnreserved]

theorem unreserved_ne_pct (c : Char) (h : isUriUnreserved c = true) : c ≠ '%' := by
  intro hc
  rw [hc] at h
  exact absurd h (by decide)

theorem decode_cons_ne_pct (c : Char) (rest : Str) (h : c ≠ '%') :
    decodeURIComponent (c :: rest) = (decodeURIComponent rest).map (fun t => c :: t) := by
  cases rest with
  | nil => simp [decodeURIComponent, h]
  | cons c1 rest1 =>
    cases rest1 with
    | nil => simp [decodeURIComponent, h]
    | cons c2 rest2 => simp [decodeURIComponent, h]

theorem encode_cons (c : Char) (s : Str) :
    encodeURIComponent (c :: s) = encOne c ++ encodeURIComponent s := by
  simp [encodeURIComponent]

theorem decode_encode (s : Str) (h : ∀ c ∈ s, c.toNat < 128) :
    decodeURIComponent (encodeURIComponent s) = some s := by
  induction s with
  | nil => simp [encodeURIComponent, decodeURIComponent]
  | cons c cs ih =>
    have hc : c.toNat < 128 := h c (by simp)
    have ihcs := ih (fun d hd => h d (List.mem_cons_of_mem c hd))
    rw [encode_cons]
    by_cases hun : isUriUnreserved c = true
    · have hne : c ≠ '%' := unreserved_ne_pct c hun
      simp only [encOne, if_pos hun, List.cons_append, List.nil_append]
      rw [decode_cons_ne_pct c _ hne, ihcs]
      rfl
    · have hb : utf8Bytes c.toNat = [c.toNat] := by unfold utf8Bytes; rw [if_pos hc]
      simp only [encOne, if_neg hun, hb, List.map_cons, List.map_nil, List.flatten_cons,
        List.flatten_nil, pctByte, List.cons_append, List.nil_append, List.append_nil]
      have h16a : c.toNat / 16 < 16 := by omega
      have h16b : c.toNat % 16 < 16 := by omega
      simp only [decodeURIComponent, if_pos rfl, hexVal_hexDigit _ h16a, hexVal_hexDigit _ h16b]
      have hmod : 16 * (c.toNat / 16) + c.toNat % 16 = c.toNat := by omega
      rw [hmod, if_pos hc, ihcs]
      simp [Char.ofNat_toNat]

theorem decode_no_pct (s : Str) (h : '%' ∉ s) : decodeURIComponent s = some s := by
  induction s with
  | nil => simp [decodeURIComponent]
  | cons c cs ih =>
    simp only [List.mem_cons, not_or] at h
    have hc : c ≠ '%' := Ne.symm h.1
    rw [decode_cons_ne_pct c cs hc, ih h.2]
    rfl

theorem comma_not_mem_entryStr (kv : Str × Str) : ',' ∉ entryStr kv := by
  intro hmem
  unfold entryStr at hmem
  rcases List.mem_append.mp hmem with hm | hm
  · rcases List.mem_append.mp hm with hm2 | hm2
    · exact absurd hm2 (by decide)
    · exact comma_not_mem_encode kv.1 hm2
  · rcases List.mem_cons.mp hm with hm2 | hm2
    · exact absurd hm2 (by decide)
    · exact comma_not_mem_encode kv.2 hm2

/-! ## Lemmas about `upsert` / `lookupStr` -/

/-- Last-write-wins lookup over a list of key/value pairs: the value of the
last pair with the given key. -/
def lastVal : List (Str × Str) → Str → Option Str
  | [], _ => none
  | kv :: rest, q =>
    match lastVal rest q with
    | some v => some v
    | none => if kv.1 = q then some kv.2 else none

theorem lookup_upsert (obj : BaggageObj) (k v q : Str) :
    lookupStr (upsert obj k v) q = if k = q then some v else lookupStr obj q := by
  induction obj with
  | nil => simp [upsert, lookupStr]
  | cons kv rest ih =>
    by_cases hk : kv.1 = k
    · by_cases hq : k = q
      · simp [upsert, lookupStr, hk, hq]
      · simp [upsert, lookupStr, hk, hq]
    · by_cases hq : kv.1 = q
      · have hkq : ¬ k = q := fun hh => hk (hq.trans hh.symm)
        have hqk : ¬ q = k := fun hh => hkq hh.symm
        simp [upsert, lookupStr, hk, hq, hkq, hqk]
      · simp [upsert, lookupStr, hk, hq, ih]

theorem foldl_upsert_lookup (l : List (Str × Str)) (init : BaggageObj) (q : Str) :
    lookupStr (l.foldl (fun acc kv => upsert acc kv.1 kv.2) init) q =
      match lastVal l q with
      | some v => some v
      | none => lookupStr init q := by
  induction l generalizing init with
  | nil => simp [lastVal]
  | cons kv rest ih =>
    rw [List.foldl_cons, ih]
    simp only [lastVal]
    cases lastVal rest q with
    | some v => rfl
    | none =>
      simp only [lookup_upsert]
      by_cases hq : kv.1 = q
      · rw [if_pos hq, if_pos hq]
      · rw [if_neg hq, if_neg hq]

theorem lastVal_eq_none (l : List (Str × Str)) (q : Str)
    (h : ∀ kv ∈ l, kv.1 ≠ q) : lastVal l q = none := by
  induction l with
  | nil => rfl
  | cons kv rest ih =>
    simp only [lastVal, ih (fun p hp => h p (List.mem_cons_of_mem kv hp))]
    rw [if_neg (h kv (List.mem_cons_self kv rest))]

theorem lastVal_eq_lookup_of_nodup (l : List (Str × Str)) (q : Str)
    (h : (l.map Prod.fst).Nodup) : lastVal l q = lookupStr l q := by
  induction l with
  | nil => rfl
  | cons kv rest ih =>
    simp only [List.map_cons, List.nodup_cons] at h
    have hrest := ih h.2
    simp only [lastVal, lookupStr, hrest]
    by_cases hq : kv.1 = q
    · have hnone : lookupStr rest q = none := by
        rw [← hrest]
        refine lastVal_eq_none rest q (fun p hp hpq => ?_)
        apply h.1
        rw [hq, ← hpq]
        exact List.mem_map_of_mem Prod.fst hp
      rw [hnone, if_pos hq]
    · rw [if_neg hq]
      cases hl : lookupStr rest q with
      | none => simp [hq]
      | some v => simp [hq]

theorem mem_upsert_keys (obj : BaggageObj) (k v : Str) (p : Str × Str)
    (hp : p ∈ upsert obj k v) : p.1 ∈ obj.map Prod.fst ∨ p.1 = k := by
  induction obj with
  | nil =>
    simp only [upsert, List.mem_singleton] at hp
    right; rw [hp]
  | cons kv rest ih =>
    simp only [upsert] at hp
    by_cases hk : kv.1 = k
    · rw [if_pos hk] at hp
      rcases List.mem_cons.mp hp with rfl | hmem
      · right; rfl
      · left; exact List.mem_map_of_mem Prod.fst (List.mem_cons_of_mem kv hmem)
    · rw [if_neg hk] at hp
      rcases List.mem_cons.mp hp with rfl | hmem
      · left; simp
      · rcases ih hmem with hin | heq
        · left
          simp only [List.map_cons, List.mem_cons]
          right; exact hin
        · right; exact heq

theorem mem_foldl_upsert_keys (l : List (Str × Str)) (init : BaggageObj) (p : Str × Str)
    (hp : p ∈ l.foldl (fun acc kv => upsert acc kv.1 kv.2) init) :
    p.1 ∈ init.map Prod.fst ∨ ∃ kv ∈ l, kv.1 = p.1 := by
  induction l generalizing init with
  | nil => left; exact List.mem_map_of_mem Prod.fst hp
  | cons kv rest ih =>
    rw [List.foldl_cons] at hp
    rcases ih (upsert init kv.1 kv.2) hp with hin | ⟨kv2, hkv2, heq⟩
    · simp only [List.mem_map] at hin
      obtain ⟨p2, hp2, hpeq⟩ := hin
      rcases mem_upsert_keys init kv.1 kv.2 p2 hp2 with hin2 | heq2
      · left; rwa [← hpeq]
      · right; exact ⟨kv, List.mem_cons_self kv rest, by rw [← heq2, hpeq]⟩
    · right; exact ⟨kv2, List.mem_cons_of_mem kv hkv2, heq⟩

theorem upsert_not_mem (obj : BaggageObj) (k v : Str)
    (h : k ∉ obj.map Prod.fst) : upsert obj k v = obj ++ [(k, v)] := by
  induction obj with
  | nil => rfl
  | cons kv rest ih =>
    simp only [List.map_cons, List.mem_cons, not_or] at h
    have hne : ¬ kv.1 = k := fun hh => h.1 hh.symm
    simp only [upsert, if_neg hne]
    rw [ih h.2, List.cons_append]

/-! ## Structure of the parser fold -/

/-- The processed (key, value) pairs of the first-party segments, in input
order. -/
def fpPairs (segs : List Str) : List (Str × Str) :=
  segs.filterMap (fun seg => if isFirstParty seg then procSeg seg else none)

/-- The third-party (non-first-party) segments, in input order. -/
def thirdSegs (segs : List Str) : List Str :=
  segs.filter (fun seg => !isFirstParty seg)

theorem parseSegs_some_proc (segs : List Str) (b b2 : Baggage)
    (h : parseSegs b segs = some b2) :
    ∀ seg ∈ segs, isFirstParty seg = true → (procSeg seg).isSome := by
  induction segs generalizing b with
  | nil => intro seg hs; cases hs
  | cons s rest ih =>
    intro seg hs hfp
    simp only [parseSegs] at h
    cases hstep : parseStep b s with
    | none => rw [hstep] at h; cases h
    | some b3 =>
      rw [hstep] at h
      rcases List.mem_cons.mp hs with rfl | hmem
      · simp only [parseStep, hfp, if_pos] at hstep
        cases hproc : procSeg seg with
        | none => rw [hproc] at hstep; cases hstep
        | some kv => simp [hproc]
      · exact ih b3 h seg hmem hfp

theorem parseSegs_eq (segs : List Str) (b : Baggage)
    (h : ∀ seg ∈ segs, isFirstParty seg = true → (procSeg seg).isSome) :
    parseSegs b segs =
      some ((fpPairs segs).foldl (fun acc kv => upsert acc kv.1 kv.2) b.1,
        (thirdSegs segs).foldl remStep b.2) := by
  induction segs generalizing b with
  | nil => simp [parseSegs, fpPairs, thirdSegs]
  | cons s rest ih =>
    by_cases hfp : isFirstParty s = true
    · obtain ⟨kv, hkv⟩ := Option.isSome_iff_exists.mp (h s (by simp) hfp)
      have hstep : parseStep b s = some (upsert b.1 kv.1 kv.2, b.2) := by
        simp [parseStep, hfp, hkv]
      have hrest := ih (upsert b.1 kv.1 kv.2, b.2)
        (fun seg hm hf => h seg (List.mem_cons_of_mem s hm) hf)
      simp only [parseSegs, hstep, hrest]
      have h1 : fpPairs (s :: rest) = kv :: fpPairs rest := by
        simp [fpPairs, List.filterMap_cons, hfp, hkv]
      have h2 : thirdSegs (s :: rest) = thirdSegs rest := by
        simp [thirdSegs, List.filter_cons, hfp]
      rw [h1, h2]
      simp
    · have hstep : parseStep b s = some (b.1, remStep b.2 s) := by
        simp [parseStep, hfp]
      have hrest := ih (b.1, remStep b.2 s)
        (fun seg hm hf => h seg (List.mem_cons_of_mem s hm) hf)
      simp only [parseSegs, hstep, hrest]
      have h1 : fpPairs (s :: rest) = fpPairs rest := by
        simp [fpPairs, List.filterMap_cons, hfp]
      have h2 : thirdSegs (s :: rest) = s :: thirdSegs rest := by
        simp [thirdSegs, List.filter_cons, hfp]
      rw [h1, h2]
      simp

theorem parse_some_eq (s : Str) (b : Baggage) (h : parseBaggageString s = some b) :
    b = ((fpPairs (splitChar ',' s)).foldl (fun acc kv => upsert acc kv.1 kv.2) [],
         (thirdSegs (splitChar ',' s)).foldl remStep []) := by
  have hproc := parseSegs_some_proc (splitChar ',' s) ([], []) b h
  have heq := parseSegs_eq (splitChar ',' s) ([], []) hproc
  have : some b = some ((fpPairs (splitChar ',' s)).foldl
      (fun acc kv => upsert acc kv.1 kv.2) [],
      (thirdSegs (splitChar ',' s)).foldl remStep []) := h.symm.trans heq
  exact Option.some.inj this

/-! ## Structure of the serializer fold -/

theorem length_remStep (acc curr : Str) : acc.length ≤ (remStep acc curr).length := by
  unfold remStep
  split
  · next h => simp [h]
  · simp

theorem foldl_serStep_length (l : List (Str × Str)) (acc : Str)
    (h : acc.length ≤ MAX_BAGGAGE_STRING_LENGTH) :
    (l.foldl serStep acc).length ≤ MAX_BAGGAGE_STRING_LENGTH := by
  induction l generalizing acc with
  | nil => exact h
  | cons kv rest ih =>
    rw [List.foldl_cons]
    apply ih
    simp only [serStep]
    split
    · exact h
    · next hgt => omega

theorem splitChar_remStep (acc curr : Str) (hcf : ',' ∉ curr) :
    splitChar ',' (remStep acc curr) =
      if acc = [] then [curr] else splitChar ',' acc ++ [curr] := by
  unfold remStep
  by_cases ha : acc = []
  · rw [if_pos ha, if_pos ha, splitChar_eq_single ',' curr hcf]
  · rw [if_neg ha, if_neg ha, splitChar_append, splitChar_eq_single ',' curr hcf]

theorem mem_foldl_serStep (l : List (Str × Str)) (acc : Str) (seg : Str)
    (hmem : seg ∈ splitChar ',' (l.foldl serStep acc)) :
    seg ∈ splitChar ',' acc ∨ ∃ kv ∈ l, seg = entryStr kv := by
  induction l generalizing acc with
  | nil => left; exact hmem
  | cons kv rest ih =>
    rw [List.foldl_cons] at hmem
    rcases ih (serStep acc kv) hmem with hin | ⟨kv2, hkv2, rfl⟩
    · simp only [serStep] at hin
      split at hin
      · left; exact hin
      · rw [splitChar_remStep acc (entryStr kv) (comma_not_mem_entryStr kv)] at hin
        split at hin
        · right
          exact ⟨kv, List.mem_cons_self kv rest, by simpa using hin⟩
        · rcases List.mem_append.mp hin with hin2 | hin2
          · left; exact hin2
          · right
            exact ⟨kv, List.mem_cons_self kv rest, by simpa using hin2⟩
    · right; exact ⟨kv2, List.mem_cons_of_mem kv hkv2, rfl⟩

theorem mem_foldl_serStep_pres (l : List (Str × Str)) (acc : Str) (seg : Str)
    (hmem : seg ∈ splitChar ',' acc) (hne : seg ≠ []) :
    seg ∈ splitChar ',' (l.foldl serStep acc) := by
  induction l generalizing acc with
  | nil => exact hmem
  | cons kv rest ih =>
    rw [List.foldl_cons]
    apply ih (serStep acc kv)
    simp only [serStep]
    split
    · exact hmem
    · rw [splitChar_remStep acc (entryStr kv) (comma_not_mem_entryStr kv)]
      split
      · next ha =>
        rw [ha] at hmem
        simp only [splitChar, List.mem_singleton] at hmem
        exact absurd hmem hne
      · exact List.mem_append_left _ hmem

theorem length_le_foldl_rem (l : List (Str × Str)) (acc : Str) :
    acc.length ≤ (l.foldl (fun a kv => remStep a (entryStr kv)) acc).length := by
  induction l generalizing acc with
  | nil => exact le_refl _
  | cons kv rest ih =>
    rw [List.foldl_cons]
    exact le_trans (length_remStep acc (entryStr kv)) (ih _)

theorem foldl_serStep_eq_naive (l : List (Str × Str)) (acc : Str)
    (h : (l.foldl (fun a kv => remStep a (entryStr kv)) acc).length ≤
      MAX_BAGGAGE_STRING_LENGTH) :
    l.foldl serStep acc = l.foldl (fun a kv => remStep a (entryStr kv)) acc := by
  induction l generalizing acc with
  | nil => rfl
  | cons kv rest ih =>
    rw [List.foldl_cons] at h ⊢
    rw [List.foldl_cons]
    have h1 : (remStep acc (entryStr kv)).length ≤ MAX_BAGGAGE_STRING_LENGTH :=
      le_trans (length_le_foldl_rem rest _) h
    have hstep : serStep acc kv = remStep acc (entryStr kv) := by
      simp only [serStep]
      rw [if_neg (by omega)]
    rw [hstep]
    exact ih _ h

theorem naiveSerialize_eq (m : BaggageObj) :
    naiveSerialize m = (m.map entryStr).foldl remStep [] := by
  unfold naiveSerialize
  rw [List.foldl_map]

theorem serialize_no_drop (m : BaggageObj)
    (hlen : (naiveSerialize m).length ≤ MAX_BAGGAGE_STRING_LENGTH) :
    serializeBaggage (m, []) = naiveSerialize m := by
  unfold serializeBaggage naiveSerialize at *
  exact foldl_serStep_eq_naive m [] hlen

theorem entryStr_ne_nil (kv : Str × Str) : entryStr kv ≠ [] := by
  unfold entryStr SENTRY_BAGGAGE_KEY_PFX
  simp [str]

theorem dropWhile_isEmpty_eq_self (l : List Str) (h : ∀ x ∈ l, x ≠ []) :
    l.dropWhile List.isEmpty = l := by
  cases l with
  | nil => rfl
  | cons x xs =>
    have hx : x.isEmpty = false := by
      cases x with
      | nil => exact absurd rfl (h [] (List.mem_cons_self [] xs))
      | cons y ys => rfl
    rw [List.dropWhile_cons, hx]
    simp

/-! ## Segment-shape lemmas -/

theorem segKey_no_eqchar (seg : Str) (h : '=' ∉ seg) :
    segKey seg = seg ∧ segValRaw seg = none := by
  unfold segKey segValRaw
  rw [splitChar_eq_single '=' seg h]
  simp [List.get?]

theorem segKey_append_eqchar (a rest : Str) (ha : '=' ∉ a) :
    segKey (a ++ '=' :: rest) = a ∧
      segValRaw (a ++ '=' :: rest) = some ((splitChar '=' rest).headD []) := by
  unfold segKey segValRaw
  rw [splitChar_append, splitChar_eq_single '=' a ha]
  obtain ⟨y, ys, h⟩ := splitChar_cons_exists '=' rest
  rw [h]
  simp [List.get?]

theorem sentryPfx_eq : SENTRY_BAGGAGE_KEY_PFX = str "sentry" ++ ['-'] := by decide

theorem procSeg_entryStr (kv : Str × Str) (hk : '-' ∉ kv.1)
    (hka : ∀ c ∈ kv.1, c.toNat < 128) (hva : ∀ c ∈ kv.2, c.toNat < 128) :
    isFirstParty (entryStr kv) = true ∧ procSeg (entryStr kv) = some kv := by
  have hkey_ne : '=' ∉ SENTRY_BAGGAGE_KEY_PFX ++ encodeURIComponent kv.1 := by
    intro hmem
    rcases List.mem_append.mp hmem with hm | hm
    · exact absurd hm (by decide)
    · exact eqchar_not_mem_encode kv.1 hm
  have hassoc : entryStr kv =
      (SENTRY_BAGGAGE_KEY_PFX ++ encodeURIComponent kv.1) ++ '=' :: encodeURIComponent kv.2 := by
    unfold entryStr
    rw [List.append_assoc]
  have hsk := segKey_append_eqchar
    (SENTRY_BAGGAGE_KEY_PFX ++ encodeURIComponent kv.1) (encodeURIComponent kv.2) hkey_ne
  constructor
  · unfold isFirstParty
    rw [hassoc, hsk.1]
    exact hasPfx_append _ _
  · unfold procSeg
    rw [hassoc, hsk.1, hsk.2]
    have hsplit : splitChar '-' (SENTRY_BAGGAGE_KEY_PFX ++ encodeURIComponent kv.1) =
        [str "sentry", encodeURIComponent kv.1] := by
      rw [sentryPfx_eq, List.append_assoc]
      have h1 : (['-'] ++ encodeURIComponent kv.1 : Str) = '-' :: encodeURIComponent kv.1 := rfl
      rw [h1, splitChar_append, splitChar_eq_single '-' (str "sentry") (by decide),
        splitChar_eq_single '-' (encodeURIComponent kv.1)
          (fun hm => hk ((dash_mem_encode_iff kv.1).mp hm))]
      rfl
    rw [hsplit]
    have hv : splitChar '=' (encodeURIComponent kv.2) = [encodeURIComponent kv.2] :=
      splitChar_eq_single '=' _ (eqchar_not_mem_encode kv.2)
    rw [hv]
    simp only [List.get?, jsArg, List.headD]
    rw [decode_encode kv.1 hka, decode_encode kv.2 hva]

/-! ## The parsed remainder -/

theorem mem_dropWhile_of_mem {α : Type} (p : α → Bool) (l : List α) (a : α)
    (ha : a ∈ l) (hp : p a = false) : a ∈ l.dropWhile p := by
  induction l with
  | nil => cases ha
  | cons x xs ih =>
    rw [List.dropWhile_cons]
    cases hx : p x with
    | true =>
      simp only [if_pos rfl]
      rcases List.mem_cons.mp ha with rfl | hmem
      · rw [hx] at hp; cases hp
      · exact ih hmem
    | false =>
      simp only [Bool.false_eq_true, if_false]
      exact ha

theorem parse_remainder_eq (s : Str) (b : Baggage) (h : parseBaggageString s = some b) :
    b.2 = joinChar ',' ((thirdSegs (splitChar ',' s)).dropWhile List.isEmpty) := by
  have hb := parse_some_eq s b h
  rw [hb]
  exact foldl_remStep_nil (thirdSegs (splitChar ',' s))

theorem parse_remainder_segs (s : Str) (b : Baggage) (h : parseBaggageString s = some b)
    (hne : (thirdSegs (splitChar ',' s)).dropWhile List.isEmpty ≠ []) :
    splitChar ',' b.2 = (thirdSegs (splitChar ',' s)).dropWhile List.isEmpty := by
  rw [parse_remainder_eq s b h]
  apply splitChar_joinChar ',' _ hne
  intro x hx
  have hx2 : x ∈ thirdSegs (splitChar ',' s) := (List.dropWhile_sublist _).mem hx
  have hx3 : x ∈ splitChar ',' s := (List.filter_sublist _).mem hx2
  exact mem_splitChar_not_mem ',' s x hx3

theorem parse_remainder_no_fp (s : Str) (b : Baggage) (h : parseBaggageString s = some b) :
    ∀ seg ∈ splitChar ',' b.2, isFirstParty seg = false := by
  intro seg hseg
  by_cases hnil : (thirdSegs (splitChar ',' s)).dropWhile List.isEmpty = []
  · rw [parse_remainder_eq s b h, hnil] at hseg
    simp only [joinChar, splitChar, List.mem_singleton] at hseg
    rw [hseg]
    rfl
  · rw [parse_remainder_segs s b h hnil] at hseg
    have h2 : seg ∈ thirdSegs (splitChar ',' s) := (List.dropWhile_sublist _).mem hseg
    have h3 := List.of_mem_filter h2
    simpa using h3

/-! ## Trace-Context Correlator (behavioural model)

The correlator's implementation (the browser tracing integration creating
pageload/navigation transactions) is not under `src/`; only its integration
test (`packages/integration-tests/suites/tracing/browsertracing/meta/test.ts`)
is.  The definitions below are therefore modelled from spec section 4.5. -/

/-- Modelled from the spec: the operation kinds of the correlator state
machine ("pageload", "navigation"). -/
inductive OpKind
  | pageload
  | navigation
deriving DecidableEq

/-- Modelled from the spec: one operation with its kind, trace id, root span
id and optional inherited parent span id. -/
structure Operation where
  kind : OpKind
  traceId : Nat
  rootSpanId : Nat
  parentSpanId : Option Nat
deriving DecidableEq

/-- Modelled from the spec: a span created under an operation; `opIdx` is the
index (in creation order) of the operation that was active at creation. -/
structure SpanRec where
  spanId : Nat
  parentSpanId : Nat
  opIdx : Nat
deriving DecidableEq

/-- Modelled from the spec: the correlator's per-document state — operations
in creation order, the index of the active one, the spans created so far, and
a freshness counter dominating every identifier in the state. -/
structure CorrState where
  ops : List Operation
  current : Option Nat
  spans : List SpanRec
  nextId : Nat
deriving DecidableEq

/-- Modelled from the spec: the external events driving the correlator — the
initial load (with the trace id and parent span id discovered from the
page-level out-of-band source), a navigation, and a span creation. -/
inductive CorrEvent
  | pageload (traceId parentSpanId : Nat)
  | navigate
  | startSpan
deriving DecidableEq

/-- Modelled from the spec: the correlator transition function.  Pageload
fires only from `NoContext`; a navigation starts a brand-new operation with a
freshly generated trace id and no inherited parent span id; a span attaches to
the active operation's root span (span creation with no active operation is
ignored rather than corrupting parent linkage). -/
def corrStep (st : CorrState) : CorrEvent → CorrState
  | CorrEvent.pageload t p =>
    match st.current with
    | some _ => st
    | none =>
      let op : Operation := ⟨OpKind.pageload, t, st.nextId, some p⟩
      { ops := st.ops ++ [op], current := some st.ops.length,
        spans := st.spans, nextId := max (st.nextId + 1) (t + 1) }
  | CorrEvent.navigate =>
    let op : Operation := ⟨OpKind.navigation, st.nextId, st.nextId + 1, none⟩
    { ops := st.ops ++ [op], current := some st.ops.length,
      spans := st.spans, nextId := st.nextId + 2 }
  | CorrEvent.startSpan =>
    match st.current with
    | none => st
    | some i =>
      match st.ops.get? i with
      | none => st
      | some op =>
        { st with spans := st.spans ++ [⟨st.nextId, op.rootSpanId, i⟩],
                  nextId := st.nextId + 1 }

/-- Modelled from the spec: the initial (`NoContext`) state. -/
def corrInit : CorrState := ⟨[], none, [], 0⟩

/-- Modelled from the spec: running the correlator over an event sequence. -/
def runCorrelator (evs : List CorrEvent) : CorrState :=
  evs.foldl corrStep corrInit

/-- The correlator invariant: identifiers are dominated by the freshness
counter, root span ids are unique across operations, operations exist only
once a context is active, every span points at the root span of the operation
it was created under, and navigation trace ids never equal a pageload's. -/
def CorrInv (st : CorrState) : Prop :=
  (∀ op ∈ st.ops, op.traceId < st.nextId ∧ op.rootSpanId < st.nextId) ∧
  (∀ i j opi opj, st.ops.get? i = some opi → st.ops.get? j = some opj →
    opi.rootSpanId = opj.rootSpanId → i = j) ∧
  (st.current = none → st.ops = []) ∧
  (∀ sp ∈ st.spans, ∃ op, st.ops.get? sp.opIdx = some op ∧
    sp.parentSpanId = op.rootSpanId) ∧
  (∀ p ∈ st.ops, ∀ n ∈ st.ops, p.kind = OpKind.pageload →
    n.kind = OpKind.navigation → n.traceId ≠ p.traceId)

theorem get?_append_singleton {α : Type} (l : List α) (a : α) (i : Nat) (x : α)
    (h : (l ++ [a]).get? i = some x) :
    (i < l.length ∧ l.get? i = some x) ∨ (i = l.length ∧ x = a) := by
  by_cases hi : i < l.length
  · left
    refine ⟨hi, ?_⟩
    rwa [List.get?_append hi] at h
  · right
    have hlen : i < (l ++ [a]).length := by
      rcases List.get?_eq_some.mp h with ⟨hh, _⟩
      exact hh
    simp only [List.length_append, List.length_singleton] at hlen
    have hieq : i = l.length := by omega
    refine ⟨hieq, ?_⟩
    rw [List.get?_append_right (by omega), hieq] at h
    simp only [Nat.sub_self, List.get?] at h
    exact (Option.some.inj h).symm

theorem corrInv_init : CorrInv corrInit := by
  refine ⟨?_, ?_, ?_, ?_, ?_⟩
  · intro op hop; cases hop
  · intro i j opi opj hi hj _
    simp [corrInit, List.get?] at hi
  · intro _; rfl
  · intro sp hsp; cases hsp
  · intro p hp; cases hp

theorem corrInv_step (st : CorrState) (ev : CorrEvent) (h : CorrInv st) :
    CorrInv (corrStep st ev) := by
  obtain ⟨h1, h2, h3, h4, h5⟩ := h
  cases ev with
  | pageload t p =>
    cases hcur : st.current with
    | some i => simpa only [corrStep, hcur] using ⟨h1, h2, h3, h4, h5⟩
    | none =>
      have hops : st.ops = [] := h3 hcur
      have hspans : st.spans = [] := by
        cases hsp : st.spans with
        | nil => rfl
        | cons sp rest =>
          obtain ⟨op, hop, _⟩ := h4 sp (by rw [hsp]; exact List.mem_cons_self sp rest)
          rw [hops] at hop
          cases sp.opIdx <;> simp [List.get?] at hop
      simp only [corrStep, hcur]
      rw [hops, hspans]
      simp only [List.nil_append, List.length_nil]
      refine ⟨?_, ?_, ?_, ?_, ?_⟩
      · intro op hop
        simp only [List.mem_singleton] at hop
        rw [hop]
        constructor
        · exact lt_of_lt_of_le (Nat.lt_succ_self t) (Nat.le_max_right _ _)
        · exact lt_of_lt_of_le (Nat.lt_succ_self st.nextId) (Nat.le_max_left _ _)
      · intro i j opi opj hi hj _
        cases i with
        | zero =>
          cases j with
          | zero => rfl
          | succ n => simp [List.get?] at hj
        | succ n => simp [List.get?] at hi
      · intro hc; simp at hc
      · intro sp hsp; cases hsp
      · intro p' hp' n' hn' hpk hnk
        simp only [List.mem_singleton] at hp' hn'
        rw [hn'] at hnk
        cases hnk
  | navigate =>
    simp only [corrStep]
    refine ⟨?_, ?_, ?_, ?_, ?_⟩
    · intro op hop
      rcases List.mem_append.mp hop with hmem | hmem
      · obtain ⟨ha, hb⟩ := h1 op hmem
        exact ⟨show op.traceId < st.nextId + 2 by omega,
          show op.rootSpanId < st.nextId + 2 by omega⟩
      · simp only [List.mem_singleton] at hmem
        rw [hmem]
        exact ⟨show st.nextId < st.nextId + 2 by omega,
          show st.nextId + 1 < st.nextId + 2 by omega⟩
    · intro i j opi opj hi hj heq
      rcases get?_append_singleton st.ops _ i opi hi with ⟨hilt, hio⟩ | ⟨hieq, hiop⟩ <;>
        rcases get?_append_singleton st.ops _ j opj hj with ⟨hjlt, hjo⟩ | ⟨hjeq, hjop⟩
      · exact h2 i j opi opj hio hjo heq
      · exfalso
        have hlt := (h1 opi (List.get?_mem hio)).2
        rw [hjop] at heq
        have heq2 : opi.rootSpanId = st.nextId + 1 := heq
        omega
      · exfalso
        have hlt := (h1 opj (List.get?_mem hjo)).2
        rw [hiop] at heq
        have heq2 : opj.rootSpanId = st.nextId + 1 := heq.symm
        omega
      · rw [hieq, hjeq]
    · intro hc; simp at hc
    · intro sp hsp
      obtain ⟨op, hop, hpar⟩ := h4 sp hsp
      refine ⟨op, ?_, hpar⟩
      have hlt : sp.opIdx < st.ops.length := by
        rcases List.get?_eq_some.mp hop with ⟨hh, _⟩
        exact hh
      rw [List.get?_append hlt]
      exact hop
    · intro p' hp' n' hn' hpk hnk
      rcases List.mem_append.mp hp' with hpm | hpm
      · rcases List.mem_append.mp hn' with hnm | hnm
        · exact h5 p' hpm n' hnm hpk hnk
        · simp only [List.mem_singleton] at hnm
          rw [hnm]
          have hlt := (h1 p' hpm).1
          show st.nextId ≠ p'.traceId
          omega
      · simp only [List.mem_singleton] at hpm
        rw [hpm] at hpk
        cases hpk
  | startSpan =>
    cases hcur : st.current with
    | none => simpa only [corrStep, hcur] using ⟨h1, h2, h3, h4, h5⟩
    | some i =>
      cases hget : st.ops.get? i with
      | none => simpa only [corrStep, hcur, hget] using ⟨h1, h2, h3, h4, h5⟩
      | some op =>
        simp only [corrStep, hcur, hget]
        refine ⟨?_, ?_, ?_, ?_, ?_⟩
        · intro op' hop'
          obtain ⟨ha, hb⟩ := h1 op' hop'
          exact ⟨show op'.traceId < st.nextId + 1 by omega,
            show op'.rootSpanId < st.nextId + 1 by omega⟩
        · exact h2
        · intro hc; simp at hc
        · intro sp hsp
          rcases List.mem_append.mp hsp with hmem | hmem
          · exact h4 sp hmem
          · simp only [List.mem_singleton] at hmem
            rw [hmem]
            exact ⟨op, hget, rfl⟩
        · exact h5

theorem corrInv_foldl (evs : List CorrEvent) (st : CorrState) (h : CorrInv st) :
    CorrInv (evs.foldl corrStep st) := by
  induction evs generalizing st with
  | nil => exact h
  | cons e rest ih => exact ih (corrStep st e) (corrInv_step st e h)

theorem corrInv_run (evs : List CorrEvent) : CorrInv (runCorrelator evs) :=
  corrInv_foldl evs corrInit corrInv_init

/-! ## Single-segment parse helpers -/

theorem splitChar_dash_pfx (t : Str) :
    splitChar '-' (SENTRY_BAGGAGE_KEY_PFX ++ t) = str "sentry" :: splitChar '-' t := by
  rw [sentryPfx_eq, List.append_assoc]
  have h1 : (['-'] ++ t : Str) = '-' :: t := rfl
  rw [h1, splitChar_append, splitChar_eq_single '-' (str "sentry") (by decide)]
  rfl

theorem parse_single_first_party (key u k1 v1 : Str)
    (hkey : hasPfx SENTRY_BAGGAGE_KEY_PFX key = true)
    (heqk : '=' ∉ key) (hck : ',' ∉ key) (hcu : ',' ∉ u)
    (hidx : (splitChar '-' key).get? 1 = some k1) (hpk : '%' ∉ k1)
    (hhead : (splitChar '=' u).headD [] = v1) (hpv : '%' ∉ v1) :
    parseBaggageString (key ++ '=' :: u) = some ([(k1, v1)], []) := by
  have hsegsplit : splitChar ',' (key ++ '=' :: u) = [key ++ '=' :: u] := by
    apply splitChar_eq_single
    intro hmem
    rcases List.mem_append.mp hmem with hm | hm
    · exact hck hm
    · rcases List.mem_cons.mp hm with hm2 | hm2
      · cases hm2
      · exact hcu hm2
  have hsk := segKey_append_eqchar key u heqk
  have hfp : isFirstParty (key ++ '=' :: u) = true := by
    unfold isFirstParty
    rw [hsk.1]
    exact hkey
  have hproc : procSeg (key ++ '=' :: u) = some (k1, v1) := by
    unfold procSeg
    rw [hsk.1, hsk.2, hidx, hhead]
    simp only [jsArg]
    rw [decode_no_pct k1 hpk, decode_no_pct v1 hpv]
  unfold parseBaggageString
  rw [hsegsplit]
  simp [parseSegs, parseStep, hfp, hproc, upsert]

theorem parse_single_fp_noeq (key k1 : Str)
    (hkey : hasPfx SENTRY_BAGGAGE_KEY_PFX key = true)
    (heqk : '=' ∉ key) (hck : ',' ∉ key)
    (hidx : (splitChar '-' key).get? 1 = some k1) (hpk : '%' ∉ k1) :
    parseBaggageString key = some ([(k1, str "undefined")], []) := by
  have hsegsplit : splitChar ',' key = [key] := splitChar_eq_single ',' key hck
  have hsk := segKey_no_eqchar key heqk
  have hfp : isFirstParty key = true := by
    unfold isFirstParty
    rw [hsk.1]
    exact hkey
  have hproc : procSeg key = some (k1, str "undefined") := by
    unfold procSeg
    rw [hsk.1, hsk.2, hidx]
    simp only [jsArg]
    rw [decode_no_pct k1 hpk, decode_no_pct (str "undefined") (by decide)]
  unfold parseBaggageString
  rw [hsegsplit]
  simp [parseSegs, parseStep, hfp, hproc, upsert]

theorem fpPairs_map_entryStr (m : BaggageObj)
    (hdash : ∀ kv ∈ m, '-' ∉ kv.1)
    (hascii : ∀ kv ∈ m, (∀ c ∈ kv.1, c.toNat < 128) ∧ (∀ c ∈ kv.2, c.toNat < 128)) :
    fpPairs (m.map entryStr) = m ∧ thirdSegs (m.map entryStr) = [] := by
  induction m with
  | nil => exact ⟨rfl, rfl⟩
  | cons kv rest ih =>
    have hmem := List.mem_cons_self kv rest
    obtain ⟨hfp, hproc⟩ := procSeg_entryStr kv (hdash kv hmem)
      (hascii kv hmem).1 (hascii kv hmem).2
    obtain ⟨ih1, ih2⟩ := ih (fun p hp => hdash p (List.mem_cons_of_mem kv hp))
      (fun p hp => hascii p (List.mem_cons_of_mem kv hp))
    constructor
    · simp [fpPairs, List.filterMap_cons, hfp, hproc] at ih1 ⊢
      exact ih1
    · simp [thirdSegs, List.filter_cons, hfp] at ih2 ⊢
      exact ih2

/-! ## Claim theorems -/

/-- C10: for every string `r`, `serializeBaggage (createBaggage {} r)` returns
exactly `r`, unchanged, even when `r` is longer than 8192 characters: the
maximum-length check is applied only when appending first-party entries and
never to the initial third-party remainder, so a Baggage with no first-party
items serializes to its remainder verbatim regardless of length. -/
theorem C10_serialize_empty_items_verbatim (r : Str) :
    serializeBaggage (createBaggage [] r) = r := rfl

/-- C10 witness: a concrete remainder longer than 8192 characters is returned
verbatim by `serializeBaggage`. -/
theorem C10_serialize_empty_items_verbatim_witness :
    serializeBaggage (createBaggage [] (List.replicate 8193 'a')) =
      List.replicate 8193 'a' :=
  C10_serialize_empty_items_verbatim (List.replicate 8193 'a')

/-- C1 counterexample: the claim "for every Baggage value, the string returned
by `serializeBaggage` has length at most 8192" is false — a Baggage with no
first-party items and a remainder of 8193 characters serializes to 8193
characters, because the length check is never applied to the remainder. -/
theorem C1_size_bound_cex :
    ¬ ((serializeBaggage (createBaggage [] (List.replicate 8193 'a'))).length ≤
      MAX_BAGGAGE_STRING_LENGTH) := by
  have h : serializeBaggage (createBaggage [] (List.replicate 8193 'a')) =
      List.replicate 8193 'a' := rfl
  rw [h, List.length_replicate]
  decide

/-- C1 (amended): for every Baggage whose `thirdPartyRemainder` has length at
most 8192, `serializeBaggage` returns a string of length at most 8192, and
every non-empty comma-separated entry of the remainder is present among the
comma-separated entries of the output (third-party entries are never dropped;
first-party entries are dropped individually to stay within the cap). -/
theorem C1_serialize_size_bound (b : Baggage)
    (h : (getThirdPartyBaggage b).length ≤ MAX_BAGGAGE_STRING_LENGTH) :
    (serializeBaggage b).length ≤ MAX_BAGGAGE_STRING_LENGTH ∧
      ∀ seg ∈ splitChar ',' (getThirdPartyBaggage b), seg ≠ [] →
        seg ∈ splitChar ',' (serializeBaggage b) := by
  constructor
  · exact foldl_serStep_length b.1 b.2 h
  · intro seg hmem hne
    exact mem_foldl_serStep_pres b.1 b.2 seg hmem hne

/-- C1 witness: the amended size bound evaluated at a concrete Baggage. -/
theorem C1_serialize_size_bound_witness :
    (getThirdPartyBaggage (createBaggage [(str "a", str "1")] (str "other=xyz"))).length ≤
      MAX_BAGGAGE_STRING_LENGTH ∧
    ((serializeBaggage (createBaggage [(str "a", str "1")] (str "other=xyz"))).length ≤
        MAX_BAGGAGE_STRING_LENGTH ∧
      ∀ seg ∈ splitChar ','
          (getThirdPartyBaggage (createBaggage [(str "a", str "1")] (str "other=xyz"))),
        seg ≠ [] →
          seg ∈ splitChar ','
            (serializeBaggage (createBaggage [(str "a", str "1")] (str "other=xyz")))) :=
  ⟨by decide, C1_serialize_size_bound _ (by decide)⟩

/-- C2 counterexample: the claim predicts that the first-party key of the
segment `sentry-foo-bar=1` is obtained by removing exactly the prefix
`sentry-`, i.e. that `items` maps `foo-bar` to `1`; the code instead stores
`key.split('-')[1]`, i.e. the key `foo`, and `foo-bar` is absent. -/
theorem C2_strip_whole_key_cex :
    parseBaggageString (str "sentry-foo-bar=1") =
      some (([(str "foo", str "1")], []) : Baggage) ∧
    getBaggageValue (([(str "foo", str "1")], []) : Baggage) (str "foo-bar") = none ∧
    getBaggageValue (([(str "foo", str "1")], []) : Baggage) (str "foo") =
      some (str "1") := by
  refine ⟨by decide, by decide, by decide⟩

/-- C2 (amended): for every comma-separated segment whose raw key matches the
reserved prefix, `parseBaggageString` stores into `items` the key
`decodeURIComponent(key.split('-')[1])` — the portion of the raw key between
its first and second dash, percent-decoded (so `sentry-foo-bar` stores `foo`,
not `foo-bar`), with the percent-decoded value; when the same stored key
results more than once, the last occurrence wins (the lookup of any key in
the parsed items equals the last-write-wins lookup over the processed
first-party segments in input order).  The second conjunct exhibits the
general single-segment law for a dashed key. -/
theorem C2_first_party_key_extraction :
    (∀ s b, parseBaggageString s = some b → ∀ k,
      getBaggageValue b k = lastVal (fpPairs (splitChar ',' s)) k) ∧
    (∀ k1 k2 v : Str, ',' ∉ k1 → '=' ∉ k1 → '-' ∉ k1 → '%' ∉ k1 →
      ',' ∉ k2 → '=' ∉ k2 → ',' ∉ v → '=' ∉ v → '%' ∉ v →
      parseBaggageString
          (SENTRY_BAGGAGE_KEY_PFX ++ k1 ++ '-' :: k2 ++ '=' :: v) =
        some ([(k1, v)], [])) := by
  constructor
  · intro s b hp k
    have hb := parse_some_eq s b hp
    unfold getBaggageValue
    rw [hb]
    rw [foldl_upsert_lookup]
    cases lastVal (fpPairs (splitChar ',' s)) k with
    | some v => rfl
    | none => rfl
  · intro k1 k2 v hck1 hek1 hdk1 hpk1 hck2 hek2 hcv hev hpv
    have hassoc : SENTRY_BAGGAGE_KEY_PFX ++ k1 ++ '-' :: k2 ++ '=' :: v =
        (SENTRY_BAGGAGE_KEY_PFX ++ k1 ++ '-' :: k2) ++ '=' :: v := by
      simp [List.append_assoc]
    rw [hassoc]
    apply parse_single_first_party
    · have h2 : SENTRY_BAGGAGE_KEY_PFX ++ k1 ++ '-' :: k2 =
          SENTRY_BAGGAGE_KEY_PFX ++ (k1 ++ '-' :: k2) := by
        simp [List.append_assoc]
      rw [h2]
      exact hasPfx_append _ _
    · intro hmem
      rcases List.mem_append.mp hmem with hm | hm
      · rcases List.mem_append.mp hm with hm2 | hm2
        · exact absurd hm2 (by decide)
        · exact hek1 hm2
      · rcases List.mem_cons.mp hm with hm2 | hm2
        · cases hm2
        · exact hek2 hm2
    · intro hmem
      rcases List.mem_append.mp hmem with hm | hm
      · rcases List.mem_append.mp hm with hm2 | hm2
        · exact absurd hm2 (by decide)
        · exact hck1 hm2
      · rcases List.mem_cons.mp hm with hm2 | hm2
        · cases hm2
        · exact hck2 hm2
    · exact hcv
    · have h2 : SENTRY_BAGGAGE_KEY_PFX ++ k1 ++ '-' :: k2 =
          SENTRY_BAGGAGE_KEY_PFX ++ (k1 ++ '-' :: k2) := by
        simp [List.append_assoc]
      rw [h2, splitChar_dash_pfx, splitChar_append, splitChar_eq_single '-' k1 hdk1]
      rfl
    · exact hpk1
    · rw [splitChar_eq_single '=' v hev]
      rfl
    · exact hpv

/-- C2 witness: last-write-wins on a concrete duplicated first-party key. -/
theorem C2_first_party_key_extraction_witness :
    parseBaggageString (str "sentry-a=1,sentry-a=2") =
      some (([(str "a", str "2")], []) : Baggage) ∧
    getBaggageValue (([(str "a", str "2")], []) : Baggage) (str "a") =
      lastVal (fpPairs (splitChar ',' (str "sentry-a=1,sentry-a=2"))) (str "a") :=
  ⟨by decide, C2_first_party_key_extraction.1 _ _ (by decide) _⟩

/-- C3 counterexample: the round-trip claim fails for keys containing a dash —
`create`/`serialize`/`parse` of the single-entry mapping `foo-bar ↦ 1` yields
the items mapping `foo ↦ 1`, not the original mapping. -/
theorem C3_round_trip_cex :
    parseBaggageString (serializeBaggage (createBaggage [(str "foo-bar", str "1")])) =
      some (([(str "foo", str "1")], []) : Baggage) ∧
    getBaggageValue (([(str "foo", str "1")], []) : Baggage) (str "foo-bar") = none := by
  refine ⟨by decide, by decide⟩

/-- C3 (amended): for every mapping of ASCII keys and values whose keys are
distinct and contain no dash, and whose naive unbounded serialization fits in
8192 characters, `parse (serialize (create items))` yields a Baggage whose
`items` equals the original mapping (order-independent lookup equality) and
whose remainder is empty.  Keys and values may still contain characters such
as `=` or `,` (they are percent-encoded on the wire); keys containing `-`
break the round trip, and entries beyond the size cap are dropped. -/
theorem C3_round_trip (m : BaggageObj)
    (hnd : (m.map Prod.fst).Nodup)
    (hdash : ∀ kv ∈ m, '-' ∉ kv.1)
    (hascii : ∀ kv ∈ m, (∀ c ∈ kv.1, c.toNat < 128) ∧ (∀ c ∈ kv.2, c.toNat < 128))
    (hlen : (naiveSerialize m).length ≤ MAX_BAGGAGE_STRING_LENGTH) :
    ∃ b, parseBaggageString (serializeBaggage (createBaggage m)) = some b ∧
      (∀ k, getBaggageValue b k = lookupStr m k) ∧ getThirdPartyBaggage b = [] := by
  by_cases hm : m = []
  · subst hm
    exact ⟨([], []), by decide, fun k => rfl, rfl⟩
  · have hnaive : naiveSerialize m = joinChar ',' (m.map entryStr) := by
      rw [naiveSerialize_eq, foldl_remStep_nil, dropWhile_isEmpty_eq_self]
      intro x hx
      obtain ⟨kv, _, rfl⟩ := List.mem_map.mp hx
      exact entryStr_ne_nil kv
    have hsegs : splitChar ',' (joinChar ',' (m.map entryStr)) = m.map entryStr := by
      apply splitChar_joinChar
      · simpa using hm
      · intro x hx
        obtain ⟨kv, _, rfl⟩ := List.mem_map.mp hx
        exact comma_not_mem_entryStr kv
    obtain ⟨hfp_pairs, hthird⟩ := fpPairs_map_entryStr m hdash hascii
    have hsucc : ∀ seg ∈ m.map entryStr, isFirstParty seg = true → (procSeg seg).isSome := by
      intro seg hseg _
      obtain ⟨kv, hkv, rfl⟩ := List.mem_map.mp hseg
      rw [(procSeg_entryStr kv (hdash kv hkv) (hascii kv hkv).1 (hascii kv hkv).2).2]
      rfl
    have hparse := parseSegs_eq (m.map entryStr) ([], []) hsucc
    refine ⟨((fpPairs (m.map entryStr)).foldl (fun acc kv => upsert acc kv.1 kv.2) [],
      (thirdSegs (m.map entryStr)).foldl remStep []), ?_, ?_, ?_⟩
    · unfold parseBaggageString
      rw [show createBaggage m = (m, []) from rfl, serialize_no_drop m hlen, hnaive, hsegs]
      exact hparse
    · intro k
      unfold getBaggageValue
      simp only
      rw [hfp_pairs, foldl_upsert_lookup, lastVal_eq_lookup_of_nodup m k hnd]
      cases lookupStr m k <;> rfl
    · simp only [getThirdPartyBaggage]
      rw [hthird]
      rfl

/-- C3 witness: the amended round trip evaluated at a concrete mapping. -/
theorem C3_round_trip_witness :
    ((([(str "a", str "1")] : BaggageObj).map Prod.fst).Nodup ∧
      (naiveSerialize [(str "a", str "1")]).length ≤ MAX_BAGGAGE_STRING_LENGTH) ∧
    ∃ b, parseBaggageString (serializeBaggage (createBaggage [(str "a", str "1")])) =
        some b ∧
      (∀ k, getBaggageValue b k = lookupStr [(str "a", str "1")] k) ∧
      getThirdPartyBaggage b = [] :=
  ⟨⟨by decide, by decide⟩,
    C3_round_trip [(str "a", str "1")] (by decide) (by decide) (by decide) (by decide)⟩

/-- C4 counterexample: the claim predicts that `sentry-a=b=c` yields the items
entry `a ↦ b=c` (value = everything after the first `=`); the code's
`curr.split('=')` destructuring instead yields `a ↦ b` — the portion between
the first and second `=` — and the text after the second `=` is discarded. -/
theorem C4_value_after_first_eq_cex :
    parseBaggageString (str "sentry-a=b=c") =
      some (([(str "a", str "b")], []) : Baggage) ∧
    getBaggageValue (([(str "a", str "b")], []) : Baggage) (str "a") ≠
      some (str "b=c") := by
  refine ⟨by decide, by decide⟩

/-- C4 (amended): for a segment containing `=`, the key is everything before
the first `=`, but the value is only the portion between the first and the
second `=` — any text after a second `=` is discarded (`[key, val] =
curr.split('=')` keeps just the first two pieces). -/
theorem C4_split_on_eq (k v1 v2 : Str)
    (hck : ',' ∉ k) (hek : '=' ∉ k) (hdk : '-' ∉ k) (hpk : '%' ∉ k)
    (hcv1 : ',' ∉ v1) (hev1 : '=' ∉ v1) (hpv1 : '%' ∉ v1) (hcv2 : ',' ∉ v2) :
    parseBaggageString (SENTRY_BAGGAGE_KEY_PFX ++ k ++ '=' :: v1 ++ '=' :: v2) =
      some ([(k, v1)], []) := by
  have hassoc : SENTRY_BAGGAGE_KEY_PFX ++ k ++ '=' :: v1 ++ '=' :: v2 =
      (SENTRY_BAGGAGE_KEY_PFX ++ k) ++ '=' :: (v1 ++ '=' :: v2) := by
    simp [List.append_assoc]
  rw [hassoc]
  apply parse_single_first_party
  · exact hasPfx_append _ _
  · intro hmem
    rcases List.mem_append.mp hmem with hm | hm
    · exact absurd hm (by decide)
    · exact hek hm
  · intro hmem
    rcases List.mem_append.mp hmem with hm | hm
    · exact absurd hm (by decide)
    · exact hck hm
  · intro hmem
    rcases List.mem_append.mp hmem with hm | hm
    · exact hcv1 hm
    · rcases List.mem_cons.mp hm with hm2 | hm2
      · cases hm2
      · exact hcv2 hm2
  · rw [splitChar_dash_pfx, splitChar_eq_single '-' k hdk]
    rfl
  · exact hpk
  · rw [splitChar_append, splitChar_eq_single '=' v1 hev1]
    rfl
  · exact hpv1

/-- C4 witness: the amended split law evaluated at a concrete segment. -/
theorem C4_split_on_eq_witness :
    parseBaggageString
        (SENTRY_BAGGAGE_KEY_PFX ++ str "a" ++ '=' :: str "b" ++ '=' :: str "c") =
      some ([(str "a", str "b")], []) :=
  C4_split_on_eq (str "a") (str "b") (str "c") (by decide) (by decide) (by decide)
    (by decide) (by decide) (by decide) (by decide) (by decide)

/-- C5 counterexample: the claim predicts that the no-`=` segment `sentry-foo`
is never stored into `items` and is passed through verbatim into the
remainder; the code instead passes the anchored `sentry-` regex test on the
whole segment
and stores `foo ↦ "undefined"` (the JS string coercion of the `undefined`
value), leaving the remainder empty. -/
theorem C5_no_eq_segment_cex :
    parseBaggageString (str "sentry-foo") =
      some (([(str "foo", str "undefined")], []) : Baggage) := by decide

/-- C5 (amended): a non-empty comma-separated segment with no `=` that does
NOT begin with `sentry-` is passed through verbatim into
`thirdPartyRemainder` (it appears among the remainder's comma-separated
segments) and no error is raised; a no-`=` segment that DOES begin with
`sentry-` is instead stored into `items` with value the string
`"undefined"`. -/
theorem C5_malformed_segments :
    (∀ s b, parseBaggageString s = some b → ∀ seg ∈ splitChar ',' s, '=' ∉ seg →
      hasPfx SENTRY_BAGGAGE_KEY_PFX seg = false → seg ≠ [] →
      seg ∈ splitChar ',' (getThirdPartyBaggage b)) ∧
    (∀ k : Str, ',' ∉ k → '=' ∉ k → '-' ∉ k → '%' ∉ k →
      parseBaggageString (SENTRY_BAGGAGE_KEY_PFX ++ k) =
        some ([(k, str "undefined")], [])) := by
  constructor
  · intro s b hp seg hmem heq hpfx hne
    have hfp : isFirstParty seg = false := by
      unfold isFirstParty
      rw [(segKey_no_eqchar seg heq).1]
      exact hpfx
    have hthird : seg ∈ thirdSegs (splitChar ',' s) := by
      unfold thirdSegs
      rw [List.mem_filter]
      exact ⟨hmem, by rw [hfp]; rfl⟩
    have hempty : seg.isEmpty = false := by
      cases seg with
      | nil => exact absurd rfl hne
      | cons c cs => rfl
    have hdw : seg ∈ (thirdSegs (splitChar ',' s)).dropWhile List.isEmpty :=
      mem_dropWhile_of_mem List.isEmpty _ seg hthird hempty
    have hdw_ne : (thirdSegs (splitChar ',' s)).dropWhile List.isEmpty ≠ [] := by
      intro hnil
      rw [hnil] at hdw
      cases hdw
    rw [show getThirdPartyBaggage b = b.2 from rfl, parse_remainder_segs s b hp hdw_ne]
    exact hdw
  · intro k hck hek hdk hpk
    apply parse_single_fp_noeq
    · exact hasPfx_append _ _
    · intro hmem
      rcases List.mem_append.mp hmem with hm | hm
      · exact absurd hm (by decide)
      · exact hek hm
    · intro hmem
      rcases List.mem_append.mp hmem with hm | hm
      · exact absurd hm (by decide)
      · exact hck hm
    · rw [splitChar_dash_pfx, splitChar_eq_single '-' k hdk]
      rfl
    · exact hpk

/-- C5 witness: a concrete prefixed no-`=` segment is stored into items with
value `"undefined"`. -/
theorem C5_malformed_segments_witness :
    parseBaggageString (SENTRY_BAGGAGE_KEY_PFX ++ str "q") =
      some ([(str "q", str "undefined")], []) :=
  C5_malformed_segments.2 (str "q") (by decide) (by decide) (by decide) (by decide)

/-- C6: for every incoming Baggage and outgoing raw header string,
`mergeAndSerializeBaggage` serializes exactly the incoming first-party items
over the header's third-party remainder, and every `sentry-`-prefixed segment
of the result is the encoding of one of the incoming items — a foreign
first-party entry carried by the header is discarded (it is in neither the
remainder nor the serialized items). -/
theorem C6_merge_discards_header_first_party (b : Baggage) (h : Str) (hb : Baggage)
    (hp : parseBaggageString h = some hb) :
    mergeAndSerializeBaggage (some b) (some h) =
      some (serializeBaggage (createBaggage b.1 (getThirdPartyBaggage hb))) ∧
    ∀ seg ∈ splitChar ','
        (serializeBaggage (createBaggage b.1 (getThirdPartyBaggage hb))),
      hasPfx SENTRY_BAGGAGE_KEY_PFX seg = true → ∃ kv ∈ b.1, seg = entryStr kv := by
  constructor
  · cases h with
    | nil =>
      have hbe : hb = ([], []) := by
        have h0 : parseBaggageString ([] : Str) = some (([], []) : Baggage) := by decide
        rw [h0] at hp
        exact (Option.some.inj hp).symm
      rw [hbe]
      simp [mergeAndSerializeBaggage, createBaggage, getThirdPartyBaggage]
    | cons c cs =>
      simp [mergeAndSerializeBaggage, hp, createBaggage, getThirdPartyBaggage]
  · intro seg hmem hpfx
    rcases mem_foldl_serStep b.1 (getThirdPartyBaggage hb) seg hmem with hin | ⟨kv, hkv, rfl⟩
    · exfalso
      have hk := hasPfx_segKey SENTRY_BAGGAGE_KEY_PFX seg (by decide) hpfx
      have hno := parse_remainder_no_fp h hb hp seg hin
      unfold isFirstParty at hno
      rw [hk] at hno
      cases hno
    · exact ⟨kv, hkv, rfl⟩

/-- C6 witness: the merge equation evaluated at a concrete incoming Baggage
and a header carrying a foreign `sentry-stale=1` entry. -/
theorem C6_merge_discards_header_first_party_witness :
    parseBaggageString (str "other=xyz,sentry-stale=1") =
      some (([(str "stale", str "1")], str "other=xyz") : Baggage) ∧
    mergeAndSerializeBaggage (some (([(str "a", str "1")], str "zzz") : Baggage))
        (some (str "other=xyz,sentry-stale=1")) =
      some (serializeBaggage (createBaggage [(str "a", str "1")] (str "other=xyz"))) :=
  ⟨by decide,
    (C6_merge_discards_header_first_party (([(str "a", str "1")], str "zzz") : Baggage)
      (str "other=xyz,sentry-stale=1")
      (([(str "stale", str "1")], str "other=xyz") : Baggage) (by decide)).1⟩

/-- C7 counterexample: the claim fails on a header with a leading empty
segment — `serialize (parse ",x=1")` is `"x=1"`, not byte-identical to
`",x=1"`, because the parser's comma-join drops leading empty segments. -/
theorem C7_third_party_cex :
    (parseBaggageString (str ",x=1")).map serializeBaggage = some (str "x=1") ∧
      str "x=1" ≠ str ",x=1" := by
  refine ⟨by decide, by decide⟩

/-- C7 (amended): for every raw header whose comma-separated segments are all
non-empty and non-`sentry-`-prefixed, parsing yields no items and the header
itself as remainder, and `serialize (parse header)` is byte-identical to
`header`. -/
theorem C7_third_party_round_trip (s : Str)
    (h : ∀ seg ∈ splitChar ',' s, seg ≠ [] ∧
      hasPfx SENTRY_BAGGAGE_KEY_PFX (segKey seg) = false) :
    parseBaggageString s = some (([], s) : Baggage) ∧
      serializeBaggage (([], s) : Baggage) = s := by
  have hfp : ∀ seg ∈ splitChar ',' s, isFirstParty seg = false := by
    intro seg hm
    unfold isFirstParty
    exact (h seg hm).2
  have hsucc : ∀ seg ∈ splitChar ',' s, isFirstParty seg = true →
      (procSeg seg).isSome := by
    intro seg hm hf
    rw [hfp seg hm] at hf
    cases hf
  have hparse := parseSegs_eq (splitChar ',' s) ([], []) hsucc
  have hfpp : fpPairs (splitChar ',' s) = [] := by
    unfold fpPairs
    rw [List.filterMap_eq_nil]
    intro seg hm
    rw [hfp seg hm]
    rfl
  have hts : thirdSegs (splitChar ',' s) = splitChar ',' s := by
    unfold thirdSegs
    rw [List.filter_eq_self]
    intro seg hm
    rw [hfp seg hm]
    rfl
  have hrem : (splitChar ',' s).foldl remStep [] = s := by
    rw [foldl_remStep_nil,
      dropWhile_isEmpty_eq_self _ (fun x hx => (h x hx).1), joinChar_splitChar]
  constructor
  · unfold parseBaggageString
    rw [hparse, hfpp, hts]
    simp [hrem]
  · rfl

/-- C7 witness: the amended round trip evaluated at a concrete third-party
header. -/
theorem C7_third_party_round_trip_witness :
    parseBaggageString (str "x=1,other=abc") =
      some (([], str "x=1,other=abc") : Baggage) ∧
    serializeBaggage (([], str "x=1,other=abc") : Baggage) = str "x=1,other=abc" :=
  C7_third_party_round_trip _ (by decide)

/-- C8 counterexample: the claim says `items` contains only keys that were
present in the input with the reserved prefix stripped; parsing
`sentry-x-y=2` instead stores the key `x` (the portion between the first and
second dash) although the prefix-stripped input key is `x-y`. -/
theorem C8_invariant_cex :
    parseBaggageString (str "sentry-x-y=2") =
      some (([(str "x", str "2")], []) : Baggage) ∧
    getBaggageValue (([(str "x", str "2")], []) : Baggage) (str "x-y") = none := by
  refine ⟨by decide, by decide⟩

/-- C8 (amended): for every input on which the parse succeeds, the
thirdPartyRemainder contains no comma-separated segment whose key carries the
`sentry-` prefix, and every items entry's key is the processed key (the
percent-decoded portion of the raw key between its first and second dash) of
some first-party segment of the input. -/
theorem C8_parse_invariant (s : Str) (b : Baggage)
    (hp : parseBaggageString s = some b) :
    (∀ seg ∈ splitChar ',' (getThirdPartyBaggage b),
      hasPfx SENTRY_BAGGAGE_KEY_PFX (segKey seg) = false) ∧
    (∀ kv ∈ b.1, ∃ seg ∈ splitChar ',' s, isFirstParty seg = true ∧
      ∃ v, procSeg seg = some (kv.1, v)) := by
  constructor
  · intro seg hm
    have hno := parse_remainder_no_fp s b hp seg hm
    unfold isFirstParty at hno
    exact hno
  · intro kv hkv
    have hb := parse_some_eq s b hp
    have hb1 : b.1 = (fpPairs (splitChar ',' s)).foldl
        (fun acc p => upsert acc p.1 p.2) [] := by
      rw [hb]
    rw [hb1] at hkv
    rcases mem_foldl_upsert_keys _ [] kv hkv with hin | ⟨p, hpmem, hpeq⟩
    · simp at hin
    · unfold fpPairs at hpmem
      rw [List.mem_filterMap] at hpmem
      obtain ⟨seg, hsegmem, hsome⟩ := hpmem
      by_cases hf : isFirstParty seg = true
      · rw [if_pos hf] at hsome
        refine ⟨seg, hsegmem, hf, p.2, ?_⟩
        rw [hsome, ← hpeq]
      · rw [if_neg hf] at hsome
        cases hsome

/-- C8 witness: the invariant evaluated at a concrete mixed header. -/
theorem C8_parse_invariant_witness :
    parseBaggageString (str "sentry-a=1,other=x") =
      some (([(str "a", str "1")], str "other=x") : Baggage) ∧
    ((∀ seg ∈ splitChar ','
        (getThirdPartyBaggage (([(str "a", str "1")], str "other=x") : Baggage)),
      hasPfx SENTRY_BAGGAGE_KEY_PFX (segKey seg) = false) ∧
     (∀ kv ∈ (([(str "a", str "1")], str "other=x") : Baggage).1,
       ∃ seg ∈ splitChar ',' (str "sentry-a=1,other=x"), isFirstParty seg = true ∧
       ∃ v, procSeg seg = some (kv.1, v))) :=
  ⟨by decide, C8_parse_invariant (str "sentry-a=1,other=x") _ (by decide)⟩

/-- C9: in the Trace-Context Correlator model (modelled from the spec, since
the correlator implementation is not under `src/`), for every event sequence,
every navigation operation's trace id differs from every pageload operation's
trace id, and every span's parent span id equals the root span id of exactly
the operation it was created under — never the root span id of a different
operation. -/
theorem C9_correlator_invariants (evs : List CorrEvent) :
    (∀ p ∈ (runCorrelator evs).ops, ∀ n ∈ (runCorrelator evs).ops,
      p.kind = OpKind.pageload → n.kind = OpKind.navigation →
      n.traceId ≠ p.traceId) ∧
    (∀ sp ∈ (runCorrelator evs).spans, ∃ op,
      (runCorrelator evs).ops.get? sp.opIdx = some op ∧
      sp.parentSpanId = op.rootSpanId ∧
      ∀ j op2, (runCorrelator evs).ops.get? j = some op2 →
        op2.rootSpanId = sp.parentSpanId → j = sp.opIdx) := by
  obtain ⟨h1, h2, h3, h4, h5⟩ := corrInv_run evs
  refine ⟨h5, ?_⟩
  intro sp hsp
  obtain ⟨op, hop, hpar⟩ := h4 sp hsp
  refine ⟨op, hop, hpar, ?_⟩
  intro j op2 hj heq
  exact h2 j sp.opIdx op2 op hj hop (by rw [heq, hpar])

/-- C9 witness: the correlator invariants evaluated on a concrete run
(pageload with discovered ids, one span, a navigation, one span). -/
theorem C9_correlator_invariants_witness :
    (∀ p ∈ (runCorrelator [CorrEvent.pageload 5 7, CorrEvent.startSpan,
        CorrEvent.navigate, CorrEvent.startSpan]).ops,
      ∀ n ∈ (runCorrelator [CorrEvent.pageload 5 7, CorrEvent.startSpan,
        CorrEvent.navigate, CorrEvent.startSpan]).ops,
      p.kind = OpKind.pageload → n.kind = OpKind.navigation →
      n.traceId ≠ p.traceId) ∧
    (∀ sp ∈ (runCorrelator [CorrEvent.pageload 5 7, CorrEvent.startSpan,
        CorrEvent.navigate, CorrEvent.startSpan]).spans, ∃ op,
      (runCorrelator [CorrEvent.pageload 5 7, CorrEvent.startSpan,
        CorrEvent.navigate, CorrEvent.startSpan]).ops.get? sp.opIdx = some op ∧
      sp.parentSpanId = op.rootSpanId ∧
      ∀ j op2, (runCorrelator [CorrEvent.pageload 5 7, CorrEvent.startSpan,
          CorrEvent.navigate, CorrEvent.startSpan]).ops.get? j = some op2 →
        op2.rootSpanId = sp.parentSpanId → j = sp.opIdx) :=
  C9_correlator_invariants
    [CorrEvent.pageload 5 7, CorrEvent.startSpan, CorrEvent.navigate,
      CorrEvent.startSpan]
